import Mathlib

/-!
# FrameTruth — access-control and tamper-evident audit subsystem

Verification of the FrameTruth forensic-evidence application.  The repository
ships the React dashboard (`Forensic-Tool-UI/src/ForensicToolDashboard.jsx`);
the access-control / audit-ledger service layer is described by the design
document but its code is not part of the repository, so those components are
modelled here from the specification text (each such definition is marked
`Modelled from the spec:`).  The dashboard components (`Sparkline`, the batch
viewer navigation) are embedded directly from the JSX source.
-/

namespace FrameTruth

/-! ## Audit ledger data model -/

/-- Modelled from the spec: the audit-record `action` enum
(VIEW, DOWNLOAD, UPLOAD, DELETE, GRANT, REVOKE, LOGIN, LOGIN_FAILURE,
ADMIN_ACTION); the service layer holding it is not in the repository. -/
inductive Action where
  | VIEW | DOWNLOAD | UPLOAD | DELETE | GRANT | REVOKE
  | LOGIN | LOGIN_FAILURE | ADMIN_ACTION
deriving DecidableEq, Repr

/-- Modelled from the spec: the audit-record `outcome` field (ALLOW/DENY/ERROR). -/
inductive Outcome where
  | ALLOW | DENY | ERROR
deriving DecidableEq, Repr

/-- Modelled from the spec: the hash used by the ledger's hash chain.  The
spec fixes no concrete hash function, only that `record_hash` is computed
deterministically from the canonicalized record fields and the previous
hash, with a fixed genesis constant for record 0.  The model uses a perfect
(injective) hash: a `Hash.node` is the canonical encoding of the hashed
fields themselves, so hash equality coincides with field equality, which is
the collision-freeness the spec's tamper-detection property presumes. -/
inductive Hash where
  | genesis
  | node (seq timestamp : Nat) (actor fileId : Option Nat) (action : Action)
      (outcome : Outcome) (metadata : Nat) (prev : Hash)
deriving DecidableEq, Repr

/-- Modelled from the spec: an Audit Record — sequence number, timestamp,
actor principal id (nullable), file id (nullable), action, outcome,
opaque metadata, `prev_hash` and `record_hash`. -/
structure AuditRecord where
  seq : Nat
  timestamp : Nat
  actor : Option Nat
  fileId : Option Nat
  action : Action
  outcome : Outcome
  metadata : Nat
  prevHash : Hash
  recordHash : Hash
deriving DecidableEq, Repr

/-- Modelled from the spec: the caller-supplied fields of `append`
(everything except the sequence number and the two hashes, which the
ledger computes itself). -/
structure RecordFields where
  timestamp : Nat
  actor : Option Nat
  fileId : Option Nat
  action : Action
  outcome : Outcome
  metadata : Nat
deriving DecidableEq, Repr

/-- The ledger: records in sequence order. -/
abbrev Ledger := List AuditRecord

/-- Modelled from the spec: `record_hash = hash(sequence number ‖ all other
fields ‖ prev_hash)` — the hash recomputed from a record's stored fields. -/
def contentHash (r : AuditRecord) : Hash :=
  .node r.seq r.timestamp r.actor r.fileId r.action r.outcome r.metadata r.prevHash

/-- Modelled from the spec: the hash the next appended record must chain to —
the last record's `record_hash`, or the genesis constant for an empty ledger. -/
def lastHash (l : Ledger) : Hash :=
  match l.getLast? with
  | none => .genesis
  | some r => r.recordHash

/-- Modelled from the spec: `append(record fields) → sequence number`.
The sequence number is the next unused one (monotonic, gapless), `prev_hash`
is the previous record's `record_hash` (genesis constant for record 0) and
`record_hash` is computed from the canonicalized fields and `prev_hash`. -/
def appendRecord (l : Ledger) (f : RecordFields) : Ledger × Nat :=
  let seq := l.length
  let prev := lastHash l
  let r : AuditRecord :=
    { seq := seq, timestamp := f.timestamp, actor := f.actor, fileId := f.fileId
      action := f.action, outcome := f.outcome, metadata := f.metadata
      prevHash := prev
      recordHash := .node seq f.timestamp f.actor f.fileId f.action f.outcome f.metadata prev }
  (l ++ [r], seq)

/-- A ledger built by a sequence of `append` operations starting from the
empty ledger. -/
def buildLedger (fs : List RecordFields) : Ledger :=
  fs.foldl (fun l f => (appendRecord l f).1) []

/-- Modelled from the spec: the result of `verify(ledger)`:
`{valid: bool, brokenAtSequence: number?, reason}`. -/
structure VerifyResult where
  valid : Bool
  brokenAtSequence : Option Nat
  reason : String
deriving DecidableEq, Repr

/-- Modelled from the spec: the Integrity Verifier's linear scan.  Replay in
sequence order keeping only the running previous hash: at index `i` check
the stored sequence number for a discontinuity, check the stored `prev_hash`
against the previous record's stored `record_hash` (genesis constant at
index 0), and recompute the record hash from the stored fields and compare
with the stored `record_hash`.  The first mismatch is the break point. -/
def verifyFrom (i : Nat) (prev : Hash) : Ledger → VerifyResult
  | [] => ⟨true, none, "ok"⟩
  | r :: rest =>
    if r.seq ≠ i then ⟨false, some i, "sequence discontinuity"⟩
    else if r.prevHash ≠ prev then ⟨false, some i, "previous-hash link mismatch"⟩
    else if r.recordHash ≠ contentHash r then ⟨false, some i, "record hash mismatch"⟩
    else verifyFrom (i + 1) r.recordHash rest

/-- Modelled from the spec: `verify(ledger)` — replay from genesis. -/
def verify (l : Ledger) : VerifyResult := verifyFrom 0 .genesis l

/-- A single-field mutation of a stored audit record: one field is
overwritten with a supplied value. -/
inductive FieldMutation where
  | seq (v : Nat)
  | timestamp (v : Nat)
  | actor (v : Option Nat)
  | fileId (v : Option Nat)
  | action (v : Action)
  | outcome (v : Outcome)
  | metadata (v : Nat)
  | prevHash (v : Hash)
  | recordHash (v : Hash)
deriving DecidableEq, Repr

/-- Overwrite the one field selected by the mutation. -/
def applyMutation (m : FieldMutation) (r : AuditRecord) : AuditRecord :=
  match m with
  | .seq v => { r with seq := v }
  | .timestamp v => { r with timestamp := v }
  | .actor v => { r with actor := v }
  | .fileId v => { r with fileId := v }
  | .action v => { r with action := v }
  | .outcome v => { r with outcome := v }
  | .metadata v => { r with metadata := v }
  | .prevHash v => { r with prevHash := v }
  | .recordHash v => { r with recordHash := v }

/-- Tampering with the stored ledger: replace record `i`'s selected field. -/
def mutateAt (l : Ledger) (i : Nat) (m : FieldMutation) : Ledger :=
  match l, i with
  | [], _ => []
  | r :: rest, 0 => applyMutation m r :: rest
  | r :: rest, Nat.succ i => r :: mutateAt rest i m

/-! ## Hash-chain well-formedness -/

/-- The chain invariant of a stored ledger segment: starting at index `i`
with incoming hash `prev`, every record carries the right sequence number,
links to the previous record's hash, and stores the hash of its own
contents. -/
def ChainedFrom : Nat → Hash → Ledger → Prop
  | _, _, [] => True
  | i, prev, r :: rest =>
    r.seq = i ∧ r.prevHash = prev ∧ r.recordHash = contentHash r ∧
      ChainedFrom (i + 1) r.recordHash rest

theorem chainedFrom_append_singleton (l : Ledger) (i : Nat) (prev : Hash)
    (r : AuditRecord) (hc : ChainedFrom i prev l)
    (hseq : r.seq = i + l.length)
    (hprev : r.prevHash = (match l.getLast? with | none => prev | some p => p.recordHash))
    (hhash : r.recordHash = contentHash r) :
    ChainedFrom i prev (l ++ [r]) := by
  induction l generalizing i prev with
  | nil =>
    simp only [List.nil_append, ChainedFrom]
    refine ⟨?_, ?_, hhash, trivial⟩
    · simpa using hseq
    · simpa using hprev
  | cons a as ih =>
    obtain ⟨h1, h2, h3, h4⟩ := hc
    refine ⟨h1, h2, h3, ?_⟩
    apply ih _ _ h4
    · simp [hseq, Nat.add_comm, Nat.add_assoc, Nat.add_left_comm]
    · rcases has : as.getLast? with _ | p
      · have : as = [] := List.getLast?_eq_none_iff.mp has
        subst this
        simpa using hprev
      · rw [hprev]
        have hcons : (a :: as).getLast? = some p := by
          simp [List.getLast?_cons, has]
        rw [hcons]

theorem buildLedger_chained (fs : List RecordFields) :
    ChainedFrom 0 .genesis (buildLedger fs) := by
  suffices h : ∀ l : Ledger, ChainedFrom 0 .genesis l →
      ChainedFrom 0 .genesis (fs.foldl (fun l f => (appendRecord l f).1) l) by
    exact h [] trivial
  induction fs with
  | nil => intro l hl; exact hl
  | cons f fs ih =>
    intro l hl
    simp only [List.foldl_cons]
    apply ih
    apply chainedFrom_append_singleton _ _ _ _ hl
    · simp
    · simp [lastHash]
    · simp [contentHash]

theorem chained_verifyFrom_ok (l : Ledger) :
    ∀ (i : Nat) (prev : Hash), ChainedFrom i prev l →
      verifyFrom i prev l = ⟨true, none, "ok"⟩ := by
  induction l with
  | nil => intro i prev _; rfl
  | cons r rest ih =>
    intro i prev hc
    obtain ⟨h1, h2, h3, h4⟩ := hc
    rw [verifyFrom, if_neg (by simp [h1]), if_neg (by simp [h2]),
      if_neg (by simp [← h3])]
    exact ih _ _ h4

theorem contentHash_eq_iff (r1 r2 : AuditRecord) :
    contentHash r1 = contentHash r2 ↔
      (r1.seq = r2.seq ∧ r1.timestamp = r2.timestamp ∧ r1.actor = r2.actor ∧
       r1.fileId = r2.fileId ∧ r1.action = r2.action ∧ r1.outcome = r2.outcome ∧
       r1.metadata = r2.metadata ∧ r1.prevHash = r2.prevHash) := by
  simp [contentHash, Hash.node.injEq]

theorem eq_of_contentHash_eq (r1 r2 : AuditRecord)
    (hc : contentHash r1 = contentHash r2) (hr : r1.recordHash = r2.recordHash) :
    r1 = r2 := by
  obtain ⟨e1, e2, e3, e4, e5, e6, e7, e8⟩ := (contentHash_eq_iff r1 r2).mp hc
  cases r1; cases r2; simp_all

theorem mutated_record_eq (m : FieldMutation) (r : AuditRecord)
    (hhash : r.recordHash = contentHash r)
    (c3 : (applyMutation m r).recordHash = contentHash (applyMutation m r)) :
    applyMutation m r = r := by
  cases m with
  | seq v => exact eq_of_contentHash_eq _ _ (c3.symm.trans hhash) rfl
  | timestamp v => exact eq_of_contentHash_eq _ _ (c3.symm.trans hhash) rfl
  | actor v => exact eq_of_contentHash_eq _ _ (c3.symm.trans hhash) rfl
  | fileId v => exact eq_of_contentHash_eq _ _ (c3.symm.trans hhash) rfl
  | action v => exact eq_of_contentHash_eq _ _ (c3.symm.trans hhash) rfl
  | outcome v => exact eq_of_contentHash_eq _ _ (c3.symm.trans hhash) rfl
  | metadata v => exact eq_of_contentHash_eq _ _ (c3.symm.trans hhash) rfl
  | prevHash v => exact eq_of_contentHash_eq _ _ (c3.symm.trans hhash) rfl
  | recordHash v => exact eq_of_contentHash_eq _ _ rfl (c3.trans hhash.symm)

theorem verifyFrom_head_breaks (i : Nat) (prev : Hash) (r : AuditRecord)
    (rest : Ledger)
    (h : ¬(r.seq = i ∧ r.prevHash = prev ∧ r.recordHash = contentHash r)) :
    (verifyFrom i prev (r :: rest)).valid = false ∧
      (verifyFrom i prev (r :: rest)).brokenAtSequence = some i := by
  rw [verifyFrom]
  by_cases hs : r.seq = i
  · rw [if_neg (by simp [hs])]
    by_cases hp : r.prevHash = prev
    · rw [if_neg (by simp [hp])]
      have hr : r.recordHash ≠ contentHash r := fun hr => h ⟨hs, hp, hr⟩
      rw [if_pos hr]
      exact ⟨rfl, rfl⟩
    · rw [if_pos hp]
      exact ⟨rfl, rfl⟩
  · rw [if_pos hs]
    exact ⟨rfl, rfl⟩

theorem verifyFrom_mutation_breaks (pre : Ledger) :
    ∀ (i0 : Nat) (prev : Hash) (r : AuditRecord) (post : Ledger)
      (m : FieldMutation),
      ChainedFrom i0 prev (pre ++ r :: post) →
      applyMutation m r ≠ r →
      (verifyFrom i0 prev (pre ++ applyMutation m r :: post)).valid = false ∧
        (verifyFrom i0 prev (pre ++ applyMutation m r :: post)).brokenAtSequence
          = some (i0 + pre.length) := by
  induction pre with
  | nil =>
    intro i0 prev r post m hc hne
    obtain ⟨h1, h2, h3, _⟩ := hc
    simp only [List.nil_append, List.length_nil, Nat.add_zero]
    apply verifyFrom_head_breaks
    rintro ⟨_, _, c3⟩
    exact hne (mutated_record_eq m r h3 c3)
  | cons a pre ih =>
    intro i0 prev r post m hc hne
    obtain ⟨h1, h2, h3, h4⟩ := hc
    have step := ih (i0 + 1) a.recordHash r post m h4 hne
    rw [List.cons_append, verifyFrom, if_neg (by simp [h1]),
      if_neg (by simp [h2]), if_neg (by simp [← h3])]
    refine ⟨step.1, step.2.trans ?_⟩
    congr 1
    simp only [List.length_cons]
    omega

theorem mutateAt_append (pre : Ledger) (r : AuditRecord) (post : Ledger)
    (m : FieldMutation) :
    mutateAt (pre ++ r :: post) pre.length m = pre ++ applyMutation m r :: post := by
  induction pre with
  | nil => rfl
  | cons a pre ih => simp [mutateAt, List.cons_append, List.length_cons, ih]

/-- C1: for every ledger built by N sequential appends (including N = 0),
`verify` returns valid=true with no break point; and mutating any single
stored field of any record i (changing its value) makes `verify` return
valid=false with brokenAtSequence = i. -/
theorem hash_chain_integrity (fs : List RecordFields) :
    verify (buildLedger fs) = ⟨true, none, "ok"⟩ ∧
    ∀ (i : Nat) (m : FieldMutation) (r : AuditRecord),
      (buildLedger fs)[i]? = some r →
      applyMutation m r ≠ r →
      (verify (mutateAt (buildLedger fs) i m)).valid = false ∧
        (verify (mutateAt (buildLedger fs) i m)).brokenAtSequence = some i := by
  constructor
  · exact chained_verifyFrom_ok _ 0 .genesis (buildLedger_chained fs)
  · intro i m r hget hne
    obtain ⟨hlt, hgetElem⟩ := List.getElem?_eq_some.mp hget
    have hchain := buildLedger_chained fs
    have htake : ((buildLedger fs).take i).length = i :=
      List.length_take_of_le (Nat.le_of_lt hlt)
    have hdecomp : buildLedger fs =
        (buildLedger fs).take i ++ r :: (buildLedger fs).drop (i + 1) := by
      conv_lhs => rw [← List.take_append_drop i (buildLedger fs)]
      rw [List.drop_eq_getElem_cons hlt, hgetElem]
    have hmut : mutateAt (buildLedger fs) i m =
        (buildLedger fs).take i ++ applyMutation m r :: (buildLedger fs).drop (i + 1) := by
      have h2 := mutateAt_append ((buildLedger fs).take i) r
        ((buildLedger fs).drop (i + 1)) m
      rw [htake, ← hdecomp] at h2
      exact h2
    rw [hdecomp] at hchain
    have := verifyFrom_mutation_breaks ((buildLedger fs).take i) 0 .genesis r
      ((buildLedger fs).drop (i + 1)) m hchain hne
    rw [verify, hmut]
    simpa [htake] using this

/-! ## Sequence numbering and range reads -/

theorem buildLedger_length (fs : List RecordFields) :
    (buildLedger fs).length = fs.length := by
  suffices h : ∀ l : Ledger,
      (fs.foldl (fun l f => (appendRecord l f).1) l).length = l.length + fs.length by
    simpa [buildLedger] using h []
  induction fs with
  | nil => intro l; simp
  | cons f fs ih =>
    intro l
    simp only [List.foldl_cons]
    rw [ih]
    simp [appendRecord]
    omega

theorem chainedFrom_seq_lb (l : Ledger) :
    ∀ (i0 : Nat) (prev : Hash), ChainedFrom i0 prev l →
      ∀ r ∈ l, i0 ≤ r.seq := by
  induction l with
  | nil => intro i0 prev _ r hr; simp at hr
  | cons a rest ih =>
    intro i0 prev hc r hr
    obtain ⟨h1, _, _, h4⟩ := hc
    rcases List.mem_cons.mp hr with rfl | hmem
    · omega
    · have := ih _ _ h4 r hmem
      omega

theorem chainedFrom_getElem (l : Ledger) :
    ∀ (i0 : Nat) (prev : Hash), ChainedFrom i0 prev l →
      ∀ (j : Nat) (r : AuditRecord), l[j]? = some r → r.seq = i0 + j := by
  induction l with
  | nil => intro i0 prev _ j r h; simp at h
  | cons a rest ih =>
    intro i0 prev hc j r h
    obtain ⟨h1, _, _, h4⟩ := hc
    cases j with
    | zero =>
      simp only [List.getElem?_cons_zero, Option.some.injEq] at h
      subst h
      omega
    | succ j =>
      simp only [List.getElem?_cons_succ] at h
      have := ih _ _ h4 j r h
      omega

theorem chainedFrom_link (l : Ledger) :
    ∀ (i0 : Nat) (prev : Hash) (j : Nat) (p q : AuditRecord),
      ChainedFrom i0 prev l → l[j]? = some p → l[j + 1]? = some q →
      q.prevHash = p.recordHash := by
  induction l with
  | nil => intro i0 prev j p q _ hp _; simp at hp
  | cons a rest ih =>
    intro i0 prev j p q hc hp hq
    obtain ⟨h1, h2, h3, h4⟩ := hc
    cases j with
    | zero =>
      simp only [List.getElem?_cons_zero, Option.some.injEq] at hp
      subst hp
      simp only [List.getElem?_cons_succ] at hq
      cases rest with
      | nil => simp at hq
      | cons b rest' =>
        obtain ⟨_, hb2, _, _⟩ := h4
        simp only [List.getElem?_cons_zero, Option.some.injEq] at hq
        subst hq
        exact hb2
    | succ j =>
      simp only [List.getElem?_cons_succ] at hp hq
      exact ih _ _ j p q h4 hp hq

/-- Modelled from the spec: `readRange(fromSeq, toSeq) → ordered sequence of
Audit Record` — the records whose sequence number lies in the requested
range, in ledger order.  The range is half-open (`fromSeq` inclusive,
`toSeq` exclusive), the convention under which the spec's scenario
`readRange(40, 60)` yields exactly 20 records. -/
def readRange (l : Ledger) (fromSeq toSeq : Nat) : Ledger :=
  l.filter (fun r => decide (fromSeq ≤ r.seq ∧ r.seq < toSeq))

theorem readRange_cons (r : AuditRecord) (rest : Ledger) (a b : Nat) :
    readRange (r :: rest) a b =
      if a ≤ r.seq ∧ r.seq < b then r :: readRange rest a b
      else readRange rest a b := by
  rw [readRange, List.filter_cons]
  by_cases h : a ≤ r.seq ∧ r.seq < b
  · rw [if_pos (by simpa using h), if_pos h]
    rfl
  · rw [if_neg (by simpa using h), if_neg h]
    rfl

theorem readRange_chained (l : Ledger) :
    ∀ (i0 : Nat) (prev : Hash) (a b : Nat), ChainedFrom i0 prev l → i0 ≤ a →
      readRange l a b = (l.drop (a - i0)).take (b - a) := by
  induction l with
  | nil => intro i0 prev a b _ _; simp [readRange]
  | cons r rest ih =>
    intro i0 prev a b hc ha
    obtain ⟨h1, h2, h3, h4⟩ := hc
    rcases Nat.lt_or_ge i0 a with hlt | hge
    · rw [readRange_cons, if_neg (by rw [h1]; omega)]
      rw [ih (i0 + 1) r.recordHash a b h4 hlt]
      rw [show a - i0 = (a - (i0 + 1)) + 1 by omega, List.drop_succ_cons]
    · have haeq : a = i0 := Nat.le_antisymm hge ha
      subst haeq
      rcases Nat.lt_or_ge a b with hb | hb
      · rw [readRange_cons, if_pos (by rw [h1]; omega)]
        have hcong : readRange rest a b = readRange rest (a + 1) b := by
          apply List.filter_congr
          intro x hx
          have hxs := chainedFrom_seq_lb rest _ _ h4 x hx
          simp only [decide_eq_decide]
          omega
        rw [hcong, ih (a + 1) r.recordHash (a + 1) b h4 (Nat.le_refl _)]
        simp only [Nat.sub_self, List.drop_zero]
        rw [show b - a = (b - (a + 1)) + 1 by omega, List.take_succ_cons]
      · rw [readRange_cons, if_neg (by rw [h1]; omega)]
        rw [show b - a = 0 by omega, List.take_zero]
        rw [readRange, List.filter_eq_nil_iff]
        intro x hx
        have hxs := chainedFrom_seq_lb rest _ _ h4 x hx
        simp only [decide_eq_true_eq, not_and, not_lt]
        omega

/-- C7: after 100 sequential appends (sequence numbers 0..99),
`readRange(40, 60)` returns exactly 20 records, in sequence order
(the j-th returned record has sequence number 40 + j), and each returned
record's `prev_hash` equals the `record_hash` of the preceding record of
the full ledger. -/
theorem readRange_consistency (fs : List RecordFields) (h100 : fs.length = 100) :
    (readRange (buildLedger fs) 40 60).length = 20 ∧
    (∀ (j : Nat) (r : AuditRecord),
      (readRange (buildLedger fs) 40 60)[j]? = some r → r.seq = 40 + j) ∧
    (∀ (j : Nat) (r : AuditRecord),
      (readRange (buildLedger fs) 40 60)[j]? = some r →
      ∃ p : AuditRecord, (buildLedger fs)[39 + j]? = some p ∧
        r.prevHash = p.recordHash) := by
  have hchain := buildLedger_chained fs
  have hlen : (buildLedger fs).length = 100 := by rw [buildLedger_length, h100]
  have hrr : readRange (buildLedger fs) 40 60 =
      ((buildLedger fs).drop 40).take 20 := by
    simpa using readRange_chained (buildLedger fs) 0 .genesis 40 60 hchain
      (Nat.zero_le _)
  have hget : ∀ (j : Nat) (r : AuditRecord),
      (readRange (buildLedger fs) 40 60)[j]? = some r →
      (buildLedger fs)[40 + j]? = some r ∧ j < 20 := by
    intro j r hj
    rw [hrr, List.getElem?_take] at hj
    by_cases hj20 : j < 20
    · rw [if_pos hj20, List.getElem?_drop] at hj
      exact ⟨hj, hj20⟩
    · rw [if_neg hj20] at hj
      exact absurd hj (by simp)
  refine ⟨?_, ?_, ?_⟩
  · rw [hrr, List.length_take, List.length_drop, hlen]
    rfl
  · intro j r hj
    have := chainedFrom_getElem _ 0 .genesis hchain (40 + j) r (hget j r hj).1
    omega
  · intro j r hj
    obtain ⟨hj', hj20⟩ := hget j r hj
    have hlt : 39 + j < (buildLedger fs).length := by omega
    have hp : (buildLedger fs)[39 + j]? = some ((buildLedger fs)[39 + j]) :=
      List.getElem?_eq_getElem hlt
    refine ⟨_, hp, ?_⟩
    apply chainedFrom_link _ 0 .genesis (39 + j) _ r hchain hp
    rw [show 39 + j + 1 = 40 + j by omega]
    exact hj'

/-- C8: appends to one ledger instance are serialized at the ledger's
single point of mutual exclusion, so any concurrent execution of N
`append` calls is equivalent to applying them in acquire order; the N
records then carry exactly the sequence numbers 0..N-1 — no duplicates,
no gaps — and the record acquired k-th holds sequence number k (no record
is out of order relative to its acquire order). -/
theorem append_sequence_monotonic (fs : List RecordFields) :
    (buildLedger fs).map AuditRecord.seq = List.range fs.length ∧
    ((buildLedger fs).map AuditRecord.seq).Nodup ∧
    (∀ (j : Nat) (r : AuditRecord), (buildLedger fs)[j]? = some r → r.seq = j) := by
  have hchain := buildLedger_chained fs
  have hlen := buildLedger_length fs
  have hget : ∀ (j : Nat) (r : AuditRecord),
      (buildLedger fs)[j]? = some r → r.seq = j := by
    intro j r h
    simpa using chainedFrom_getElem _ 0 .genesis hchain j r h
  have hmap : (buildLedger fs).map AuditRecord.seq = List.range fs.length := by
    apply List.ext_getElem?
    intro j
    rw [List.getElem?_map]
    by_cases hj : j < fs.length
    · have hsome : (buildLedger fs)[j]? = some ((buildLedger fs)[j]) :=
        List.getElem?_eq_getElem (by omega)
      rw [hsome, List.getElem?_range hj]
      simp [hget j _ hsome]
    · have h1 : (buildLedger fs)[j]? = none :=
        List.getElem?_eq_none (by omega)
      have h2 : (List.range fs.length)[j]? = none :=
        List.getElem?_eq_none (by simpa using hj)
      simp [h1, h2]
  exact ⟨hmap, hmap ▸ List.nodup_range fs.length, hget⟩

/-! ## Identity store, permission table and authorization engine -/

/-- Modelled from the spec: the closed set of role tags
(admin, analyst, user). -/
inductive Role where
  | admin | analyst | user
deriving DecidableEq, Repr

/-- Modelled from the spec: permission levels with the cumulative ordering
read < write < admin. -/
inductive Level where
  | read | write | admin
deriving DecidableEq, Repr

/-- Numeric rank of a level under the cumulative ordering. -/
def Level.rank : Level → Nat
  | .read => 0
  | .write => 1
  | .admin => 2

/-- `covers a b`: holding level `a` satisfies a requirement of level `b`
(cumulative: admin ⊇ write ⊇ read). -/
def Level.covers (a b : Level) : Bool := b.rank ≤ a.rank

/-- Modelled from the spec: a Principal
`{id (unique, immutable), username (unique), role}`. -/
structure Principal where
  id : Nat
  username : String
  role : Role
deriving DecidableEq, Repr

/-- Modelled from the spec: an Evidence File
`{id, owner (principal id), created_at, content_ref}`. -/
structure EvidenceFile where
  id : Nat
  owner : Nat
  createdAt : Nat
  contentRef : Nat
deriving DecidableEq, Repr

/-- Modelled from the spec: a Permission Grant
`{file id, grantee principal id, level, granted_by, granted_at,
expires_at (nullable)}`. -/
structure PermissionGrant where
  fileId : Nat
  grantee : Nat
  level : Level
  grantedBy : Nat
  grantedAt : Nat
  expiresAt : Option Nat
deriving DecidableEq, Repr

/-- Modelled from the spec: the state the Authorization Engine consults —
Identity Store, file records, the Permission Table, the Audit Ledger, and
the injected clock. -/
structure SystemState where
  principals : List Principal
  files : List EvidenceFile
  grants : List PermissionGrant
  ledger : Ledger
  now : Nat
deriving Repr

/-- Modelled from the spec: `resolvePrincipal(id) → Principal`, `none` when
the id does not resolve. -/
def resolvePrincipal (s : SystemState) (pid : Nat) : Option Principal :=
  s.principals.find? (fun p => p.id == pid)

/-- Modelled from the spec: file lookup by id, `none` when the id does not
resolve. -/
def findFile (s : SystemState) (fid : Nat) : Option EvidenceFile :=
  s.files.find? (fun f => f.id == fid)

/-- Modelled from the spec: a grant is active iff `expires_at` is null or in
the future; expiry is evaluated lazily at read time, never by deletion. -/
def grantActive (now : Nat) (g : PermissionGrant) : Bool :=
  match g.expiresAt with
  | none => true
  | some t => now < t

/-- Modelled from the spec: the Permission Table's point lookup — the active
grants for `(file, grantee)` at the current clock. -/
def activeGrantsFor (s : SystemState) (fid pid : Nat) : List PermissionGrant :=
  s.grants.filter (fun g => g.fileId == fid && g.grantee == pid && grantActive s.now g)

/-- Modelled from the spec: the audit/history view of the Permission Table —
every stored grant for `(file, grantee)`, active or expired. -/
def grantHistory (s : SystemState) (fid pid : Nat) : List PermissionGrant :=
  s.grants.filter (fun g => g.fileId == fid && g.grantee == pid)

/-- Modelled from the spec: lookup failures are errors, distinguishable for
diagnostics. -/
inductive CheckError where
  | UnknownPrincipal
  | UnknownFile
deriving DecidableEq, Repr

/-- Modelled from the spec: how an ALLOW was reached — recorded in the audit
metadata so reviewers can distinguish owner/grant access from the
role-based admin override. -/
inductive AccessPath where
  | owner
  | grant
  | override
deriving DecidableEq, Repr

/-- Modelled from the spec: the value of `check` — ALLOW (tagged with the
access path for the audit metadata) or DENY; denial is a regular return
value, not an error. -/
inductive CheckResult where
  | allow (path : AccessPath)
  | deny
deriving DecidableEq, Repr

/-- Modelled from the spec: `check(principal, file, requiredLevel)`.
(a) owner → ALLOW at any level; (b) else ALLOW if an active grant's level
covers the required level; (c) else the system-wide admin-role override
(flagged `override`); (d) else DENY.  Fails with `UnknownPrincipal` /
`UnknownFile` when a lookup does not resolve.  Pure: no ledger write. -/
def check (s : SystemState) (pid fid : Nat) (required : Level) :
    Except CheckError CheckResult :=
  match resolvePrincipal s pid with
  | none => .error .UnknownPrincipal
  | some p =>
    match findFile s fid with
    | none => .error .UnknownFile
    | some f =>
      if p.id == f.owner then .ok (.allow .owner)
      else if (activeGrantsFor s fid pid).any (fun g => g.level.covers required) then
        .ok (.allow .grant)
      else if p.role == Role.admin then .ok (.allow .override)
      else .ok .deny

/-- Modelled from the spec: error taxonomy of the administrative surface —
`NotAuthorized` for a grant/revoke without admin-level access, plus the
propagated lookup failures. -/
inductive AdminOpError where
  | NotAuthorized
  | UnknownPrincipal
  | UnknownFile
deriving DecidableEq, Repr

/-- Modelled from the spec: upsert into the Permission Table — granting the
same (file, grantee, level) again refreshes the existing row (at most one
active grant per tuple) rather than duplicating; otherwise the new grant
row is added. -/
def upsertGrant (gs : List PermissionGrant) (g : PermissionGrant) :
    List PermissionGrant :=
  if gs.any (fun x => x.fileId == g.fileId && x.grantee == g.grantee && x.level == g.level) then
    gs.map (fun x =>
      if x.fileId == g.fileId && x.grantee == g.grantee && x.level == g.level then g else x)
  else gs ++ [g]

/-- Modelled from the spec: `grant(granter, file, grantee, level, expiresAt?)`
— succeeds only if `check(granter, file, admin) == ALLOW` (otherwise it
fails with `NotAuthorized`; lookup failures propagate), upserts the
Permission Grant, appends a GRANT/ALLOW audit record, and returns the
resulting grant. -/
def grant (s : SystemState) (granter fid grantee : Nat) (level : Level)
    (expiresAt : Option Nat) : Except AdminOpError (SystemState × PermissionGrant) :=
  match check s granter fid .admin with
  | .error .UnknownPrincipal => .error .UnknownPrincipal
  | .error .UnknownFile => .error .UnknownFile
  | .ok .deny => .error .NotAuthorized
  | .ok (.allow _) =>
    let g : PermissionGrant :=
      { fileId := fid, grantee := grantee, level := level,
        grantedBy := granter, grantedAt := s.now, expiresAt := expiresAt }
    .ok ({ s with
      grants := upsertGrant s.grants g,
      ledger := (appendRecord s.ledger
        ⟨s.now, some granter, some fid, .GRANT, .ALLOW, 0⟩).1 }, g)

/-- Modelled from the spec: `revoke(revoker, file, grantee, level)` — same
admin check as `grant`; removes the matching grant row when present
(revoking a non-existent grant is a no-op that still succeeds), and the
REVOKE is audited with outcome ALLOW. -/
def revoke (s : SystemState) (revoker fid grantee : Nat) (level : Level) :
    Except AdminOpError SystemState :=
  match check s revoker fid .admin with
  | .error .UnknownPrincipal => .error .UnknownPrincipal
  | .error .UnknownFile => .error .UnknownFile
  | .ok .deny => .error .NotAuthorized
  | .ok (.allow _) =>
    .ok { s with
      grants := s.grants.filter
        (fun g => !(g.fileId == fid && g.grantee == grantee && g.level == level)),
      ledger := (appendRecord s.ledger
        ⟨s.now, some revoker, some fid, .REVOKE, .ALLOW, 0⟩).1 }

/-! ## Authorization-engine theorems -/

/-- `check` reads only the Identity Store, the file records, the Permission
Table and the clock — never the ledger. -/
theorem check_congr (s1 s2 : SystemState) (pid fid : Nat) (L : Level)
    (hP : s1.principals = s2.principals) (hF : s1.files = s2.files)
    (hG : s1.grants = s2.grants) (hN : s1.now = s2.now) :
    check s1 pid fid L = check s2 pid fid L := by
  unfold check resolvePrincipal findFile activeGrantsFor
  rw [hP, hF, hG, hN]

/-- C2: ownership dominates: when principal P and file F both resolve and P
is the owner of F, `check(P, F, L)` is ALLOW for every required level L
(admin included), with no stored grant consulted. -/
theorem owner_always_allowed (s : SystemState) (pid fid : Nat) (L : Level)
    (p : Principal) (f : EvidenceFile)
    (hp : resolvePrincipal s pid = some p) (hf : findFile s fid = some f)
    (hown : p.id = f.owner) :
    check s pid fid L = .ok (.allow .owner) := by
  simp only [check, hp, hf]
  rw [if_pos (by simp [hown])]

/-- C3: `check` never throws for a normal deny — whenever both lookups
resolve it returns a regular value (possibly DENY); it returns an error
exactly when the principal id does not resolve (`UnknownPrincipal`) or the
file id does not resolve (`UnknownFile`), and the two error values are
distinguishable. -/
theorem check_error_discipline (s : SystemState) (pid fid : Nat) (L : Level) :
    (check s pid fid L = .error .UnknownPrincipal ↔
      resolvePrincipal s pid = none) ∧
    (check s pid fid L = .error .UnknownFile ↔
      ((resolvePrincipal s pid).isSome = true ∧ findFile s fid = none)) ∧
    ((∃ r : CheckResult, check s pid fid L = .ok r) ↔
      ((resolvePrincipal s pid).isSome = true ∧ (findFile s fid).isSome = true)) ∧
    CheckError.UnknownPrincipal ≠ CheckError.UnknownFile := by
  refine ⟨?_, ?_, ?_, by decide⟩
  · rcases hp : resolvePrincipal s pid with _ | p
    · simp [check, hp]
    · rcases hf : findFile s fid with _ | f
      · simp [check, hp, hf]
      · simp only [check, hp, hf]
        split_ifs <;> simp
  · rcases hp : resolvePrincipal s pid with _ | p
    · simp [check, hp]
    · rcases hf : findFile s fid with _ | f
      · simp [check, hp, hf]
      · simp only [check, hp, hf]
        split_ifs <;> simp
  · rcases hp : resolvePrincipal s pid with _ | p
    · simp [check, hp]
    · rcases hf : findFile s fid with _ | f
      · simp [check, hp, hf]
      · simp only [check, hp, hf, Option.isSome_some, true_and]
        constructor
        · intro _
          trivial
        · intro _
          split_ifs <;> exact ⟨_, rfl⟩

theorem upsertGrant_fresh (gs : List PermissionGrant) (g : PermissionGrant)
    (h : ∀ g' ∈ gs, ¬(g'.fileId = g.fileId ∧ g'.grantee = g.grantee)) :
    upsertGrant gs g = gs ++ [g] := by
  have hany : (gs.any fun x =>
      x.fileId == g.fileId && x.grantee == g.grantee && x.level == g.level) = false := by
    rw [List.any_eq_false]
    intro x hx hpred
    simp only [Bool.and_eq_true, beq_iff_eq] at hpred
    exact h x hx ⟨hpred.1.1, hpred.1.2⟩
  unfold upsertGrant
  rw [hany]
  simp

theorem grant_eq_of_allow (s : SystemState) (granter fid grantee : Nat)
    (level : Level) (expiresAt : Option Nat) (pth : AccessPath)
    (hc : check s granter fid .admin = .ok (.allow pth)) :
    grant s granter fid grantee level expiresAt =
      .ok ({ s with
        grants := upsertGrant s.grants
          ⟨fid, grantee, level, granter, s.now, expiresAt⟩,
        ledger := (appendRecord s.ledger
          ⟨s.now, some granter, some fid, .GRANT, .ALLOW, 0⟩).1 },
        ⟨fid, grantee, level, granter, s.now, expiresAt⟩) := by
  unfold grant
  rw [hc]

/-- The deny branch of `check`: both lookups resolve, the principal is not
the owner, holds no active grant on the file, and does not carry the admin
role. -/
theorem check_deny_of_no_access (s : SystemState) (pid fid : Nat) (L : Level)
    (p : Principal) (f : EvidenceFile)
    (hp : resolvePrincipal s pid = some p) (hf : findFile s fid = some f)
    (hnotown : p.id ≠ f.owner) (hnotadmin : p.role ≠ Role.admin)
    (hnoactive : ∀ g ∈ s.grants, g.fileId = fid → g.grantee = pid →
      grantActive s.now g = false) :
    check s pid fid L = .ok .deny := by
  have hempty : activeGrantsFor s fid pid = [] := by
    unfold activeGrantsFor
    rw [List.filter_eq_nil_iff]
    intro x hx hpred
    simp only [Bool.and_eq_true, beq_iff_eq] at hpred
    obtain ⟨⟨h1, h2⟩, h3⟩ := hpred
    rw [hnoactive x hx h1 h2] at h3
    exact Bool.false_ne_true h3
  simp only [check, hp, hf]
  rw [if_neg (by simp [hnotown]), if_neg (by rw [hempty]; simp),
    if_neg (by simp [hnotadmin])]

/-- C4: a grant whose expiry has passed at check time is treated as
inactive: granting a non-owner, non-admin-role principal a level with
expiry `texp`, then advancing the clock to `now2 > texp` and checking that
level, yields DENY — while the expired grant is not deleted and remains
visible to the grant-history query. -/
theorem expired_grant_denied (s : SystemState) (granter pid fid : Nat)
    (lvl : Level) (texp now2 : Nat) (p : Principal) (f : EvidenceFile)
    (s' : SystemState) (g : PermissionGrant)
    (hp : resolvePrincipal s pid = some p)
    (hf : findFile s fid = some f)
    (hnotown : p.id ≠ f.owner)
    (hnotadmin : p.role ≠ Role.admin)
    (hfresh : ∀ g' ∈ s.grants, ¬(g'.fileId = fid ∧ g'.grantee = pid))
    (hgr : grant s granter fid pid lvl (some texp) = .ok (s', g))
    (hpast : texp < now2) :
    check { s' with now := now2 } pid fid lvl = .ok .deny ∧
      g ∈ grantHistory { s' with now := now2 } fid pid := by
  rcases hc : check s granter fid Level.admin with e | r
  · exfalso
    unfold grant at hgr
    rw [hc] at hgr
    cases e <;> exact Except.noConfusion hgr
  · cases r with
    | deny =>
      exfalso
      unfold grant at hgr
      rw [hc] at hgr
      exact Except.noConfusion hgr
    | allow pth =>
      rw [grant_eq_of_allow s granter fid pid lvl (some texp) pth hc] at hgr
      injection hgr with hpair
      have hs' : s' = { s with
          grants := upsertGrant s.grants ⟨fid, pid, lvl, granter, s.now, some texp⟩,
          ledger := (appendRecord s.ledger
            ⟨s.now, some granter, some fid, .GRANT, .ALLOW, 0⟩).1 } :=
        (congrArg Prod.fst hpair).symm
      have hg : g = ⟨fid, pid, lvl, granter, s.now, some texp⟩ :=
        (congrArg Prod.snd hpair).symm
      subst hs'
      subst hg
      have hup : upsertGrant s.grants ⟨fid, pid, lvl, granter, s.now, some texp⟩ =
          s.grants ++ [⟨fid, pid, lvl, granter, s.now, some texp⟩] :=
        upsertGrant_fresh s.grants _ hfresh
      constructor
      · refine check_deny_of_no_access _ pid fid lvl p f ?_ ?_ hnotown hnotadmin ?_
        · exact hp
        · exact hf
        intro x hx h1 h2
        have hx' : x ∈ upsertGrant s.grants
            ⟨fid, pid, lvl, granter, s.now, some texp⟩ := hx
        rw [hup] at hx'
        rcases List.mem_append.mp hx' with hmem | hmem
        · exact absurd ⟨h1, h2⟩ (hfresh x hmem)
        · rw [List.mem_singleton] at hmem
          subst hmem
          show grantActive now2 _ = false
          simp only [grantActive, decide_eq_false_iff_not, not_lt]
          omega
      · have hmemG : (⟨fid, pid, lvl, granter, s.now, some texp⟩ : PermissionGrant)
            ∈ upsertGrant s.grants ⟨fid, pid, lvl, granter, s.now, some texp⟩ := by
          rw [hup]
          exact List.mem_append_right _ (List.mem_singleton.mpr rfl)
        unfold grantHistory
        exact List.mem_filter.mpr ⟨hmemG, by simp⟩

/-- C5: the system-wide admin-role override: a resolving admin-role
principal is allowed on every resolving file at every required level; and
when the principal neither owns the file nor holds any grant on it, the
ALLOW is reached through the `override` access path, whose audit flag is
distinguishable from the `owner` and `grant` paths. -/
theorem admin_role_override (s : SystemState) (pid fid : Nat) (L : Level)
    (p : Principal) (f : EvidenceFile)
    (hp : resolvePrincipal s pid = some p) (hf : findFile s fid = some f)
    (hrole : p.role = Role.admin) :
    (∃ pth : AccessPath, check s pid fid L = .ok (.allow pth)) ∧
    (p.id ≠ f.owner → (∀ g ∈ s.grants, ¬(g.fileId = fid ∧ g.grantee = pid)) →
      (check s pid fid L = .ok (.allow .override) ∧
        AccessPath.override ≠ AccessPath.owner ∧
        AccessPath.override ≠ AccessPath.grant)) := by
  constructor
  · simp only [check, hp, hf]
    by_cases h1 : p.id = f.owner
    · rw [if_pos (by simp [h1])]
      exact ⟨_, rfl⟩
    · rw [if_neg (by simp [h1])]
      by_cases h2 : ((activeGrantsFor s fid pid).any fun g => g.level.covers L) = true
      · rw [if_pos h2]
        exact ⟨_, rfl⟩
      · rw [if_neg h2, if_pos (by simp [hrole])]
        exact ⟨_, rfl⟩
  · intro hnotown hnogrant
    refine ⟨?_, by decide, by decide⟩
    have hempty : activeGrantsFor s fid pid = [] := by
      unfold activeGrantsFor
      rw [List.filter_eq_nil_iff]
      intro x hx hpred
      simp only [Bool.and_eq_true, beq_iff_eq] at hpred
      exact hnogrant x hx ⟨hpred.1.1, hpred.1.2⟩
    simp only [check, hp, hf]
    rw [if_neg (by simp [hnotown]), if_neg (by rw [hempty]; simp),
      if_pos (by simp [hrole])]

/-- C6: revoke is idempotent on a non-existent grant: an authorized revoke
with no matching grant row succeeds, leaves the Permission Table unchanged,
a second identical revoke also succeeds and again changes nothing, and each
no-op revoke is still audited as a REVOKE with outcome ALLOW. -/
theorem revoke_idempotent (s : SystemState) (revoker fid grantee : Nat)
    (lvl : Level) (pth : AccessPath)
    (hauth : check s revoker fid Level.admin = .ok (.allow pth))
    (hnone : ∀ g ∈ s.grants,
      ¬(g.fileId = fid ∧ g.grantee = grantee ∧ g.level = lvl)) :
    ∃ s1 s2 : SystemState,
      revoke s revoker fid grantee lvl = .ok s1 ∧
      s1.grants = s.grants ∧
      (∃ rec : AuditRecord, s1.ledger = s.ledger ++ [rec] ∧
        rec.action = Action.REVOKE ∧ rec.outcome = Outcome.ALLOW) ∧
      revoke s1 revoker fid grantee lvl = .ok s2 ∧
      s2.grants = s.grants ∧
      (∃ rec2 : AuditRecord, s2.ledger = s1.ledger ++ [rec2] ∧
        rec2.action = Action.REVOKE ∧ rec2.outcome = Outcome.ALLOW) := by
  have hfilter : s.grants.filter
      (fun g => !(g.fileId == fid && g.grantee == grantee && g.level == lvl)) =
      s.grants := by
    rw [List.filter_eq_self]
    intro x hx
    simp only [Bool.not_eq_true', Bool.and_eq_false_iff]
    by_cases h1 : x.fileId = fid
    · by_cases h2 : x.grantee = grantee
      · right
        have h3 : x.level ≠ lvl := fun h3 => hnone x hx ⟨h1, h2, h3⟩
        simp [h3]
      · left
        right
        simp [h2]
    · left
      left
      simp [h1]
  set s1 : SystemState := { s with
    grants := s.grants.filter
      (fun g => !(g.fileId == fid && g.grantee == grantee && g.level == lvl)),
    ledger := (appendRecord s.ledger
      ⟨s.now, some revoker, some fid, .REVOKE, .ALLOW, 0⟩).1 } with hs1
  have hrev1 : revoke s revoker fid grantee lvl = .ok s1 := by
    unfold revoke
    rw [hauth]
  have hg1 : s1.grants = s.grants := hfilter
  have hauth1 : check s1 revoker fid Level.admin = .ok (.allow pth) := by
    rw [check_congr s1 s revoker fid Level.admin rfl rfl hg1 rfl]
    exact hauth
  set s2 : SystemState := { s1 with
    grants := s1.grants.filter
      (fun g => !(g.fileId == fid && g.grantee == grantee && g.level == lvl)),
    ledger := (appendRecord s1.ledger
      ⟨s1.now, some revoker, some fid, .REVOKE, .ALLOW, 0⟩).1 } with hs2
  have hrev2 : revoke s1 revoker fid grantee lvl = .ok s2 := by
    unfold revoke
    rw [hauth1]
  have hg2 : s2.grants = s.grants := by
    show s1.grants.filter _ = s.grants
    rw [hg1, hfilter]
  refine ⟨s1, s2, hrev1, hg1, ⟨_, rfl, rfl, rfl⟩, hrev2, hg2, ⟨_, rfl, rfl, rfl⟩⟩

/-! ## Dashboard batch viewer navigation
(`Forensic-Tool-UI/src/ForensicToolDashboard.jsx`) -/

/-- The batch-viewer state of `ForensicToolDashboard`:
`batchResults.length` and `batchIndex`.  `batchIndex` is modelled as an
integer because the JSX computes `(i - 1 + batchResults.length)`, which
passes through negative intermediate values in JavaScript arithmetic. -/
structure BatchState where
  len : Nat
  idx : Int
deriving DecidableEq, Repr

/-- The dashboard events affecting the pair: a successful batch upload
(`setBatchResults(mergedResults); setBatchIndex(0)`, lines 416-423), and
clicks on the Next / Prev buttons (lines 601-622), which are rendered only
when `batchResults.length > 1`.  For the non-negative dividends that occur
here, JavaScript's remainder operator agrees with `Int.emod` (`%`). -/
inductive BatchEvent where
  | upload (n : Nat)
  | next
  | prev
deriving DecidableEq, Repr

/-- One state transition of the batch viewer, from the JSX handlers:
upload → `setBatchIndex(0)` with the new results; Next →
`setBatchIndex((i + 1) % batchResults.length)`; Prev →
`setBatchIndex((i - 1 + batchResults.length) % batchResults.length)`. -/
def batchStep (st : BatchState) (e : BatchEvent) : BatchState :=
  match e with
  | .upload n => ⟨n, 0⟩
  | .next => if 1 < st.len then ⟨st.len, (st.idx + 1) % (st.len : Int)⟩ else st
  | .prev =>
    if 1 < st.len then ⟨st.len, (st.idx - 1 + (st.len : Int)) % (st.len : Int)⟩
    else st

/-- Initial dashboard state: `useState([])` and `useState(0)`. -/
def initialBatchState : BatchState := ⟨0, 0⟩

/-- The batch-viewer index invariant: whenever `batchResults` is non-empty,
`batchIndex` is a valid index. -/
def BatchInv (st : BatchState) : Prop :=
  0 < st.len → 0 ≤ st.idx ∧ st.idx < (st.len : Int)

theorem batchStep_preserves (st : BatchState) (e : BatchEvent)
    (h : BatchInv st) : BatchInv (batchStep st e) := by
  cases e with
  | upload n =>
    intro hn
    simp only [batchStep] at hn ⊢
    omega
  | next =>
    by_cases hlen : 1 < st.len
    · simp only [batchStep]
      rw [if_pos hlen]
      intro _
      exact ⟨Int.emod_nonneg _ (by omega), Int.emod_lt_of_pos _ (by omega)⟩
    · simp only [batchStep]
      rw [if_neg hlen]
      exact h
  | prev =>
    by_cases hlen : 1 < st.len
    · simp only [batchStep]
      rw [if_pos hlen]
      intro _
      exact ⟨Int.emod_nonneg _ (by omega), Int.emod_lt_of_pos _ (by omega)⟩
    · simp only [batchStep]
      rw [if_neg hlen]
      exact h

/-- C9: batch navigation safety: a batch upload resets the index to 0; when
more than one result is shown, Next maps index i to (i + 1) mod len and
Prev maps i to (i - 1 + len) mod len; and along every event sequence from
the initial dashboard state, whenever `batchResults` is non-empty,
`batchIndex` is in range — navigation wraps and never goes out of
bounds. -/
theorem batch_navigation_safe :
    (∀ (st : BatchState) (n : Nat), batchStep st (.upload n) = ⟨n, 0⟩) ∧
    (∀ st : BatchState, 1 < st.len →
      batchStep st .next = ⟨st.len, (st.idx + 1) % (st.len : Int)⟩) ∧
    (∀ st : BatchState, 1 < st.len →
      batchStep st .prev =
        ⟨st.len, (st.idx - 1 + (st.len : Int)) % (st.len : Int)⟩) ∧
    (∀ es : List BatchEvent, BatchInv (es.foldl batchStep initialBatchState)) := by
  refine ⟨fun st n => rfl, fun st h => by simp [batchStep, h],
    fun st h => by simp [batchStep, h], ?_⟩
  intro es
  suffices hgen : ∀ (es : List BatchEvent) (st : BatchState), BatchInv st →
      BatchInv (es.foldl batchStep st) by
    exact hgen es initialBatchState (by intro h; simp [initialBatchState] at h)
  intro es
  induction es with
  | nil => intro st h; exact h
  | cons e es ih =>
    intro st h
    exact ih _ (batchStep_preserves st e h)

/-! ## Dashboard Sparkline (`ForensicToolDashboard.jsx`, both variants) -/

/-- `const width = 540` in `Sparkline`. -/
def sparklineWidth : ℚ := 540

/-- `Math.max(...data)` on the non-empty list `d :: ds`. -/
def dataMax (d : ℚ) (ds : List ℚ) : ℚ := ds.foldl max d

/-- `Math.min(...data)` on the non-empty list `d :: ds`. -/
def dataMin (d : ℚ) (ds : List ℚ) : ℚ := ds.foldl min d

/-- The vertical scaling divisor `(max - min || 1)`: JavaScript replaces the
falsy difference 0 by 1. -/
def sparklineDivisor (maxv minv : ℚ) : ℚ :=
  if maxv - minv = 0 then 1 else maxv - minv

/-- `scaleX = (i) => (i / (data.length - 1)) * width`. -/
def scaleX (len : Nat) (i : Nat) : ℚ :=
  ((i : ℚ) / ((len : ℚ) - 1)) * sparklineWidth

/-- `scaleY = (v) => height - ((v - min) / (max - min || 1)) * height`. -/
def scaleY (height minv maxv v : ℚ) : ℚ :=
  height - ((v - minv) / sparklineDivisor maxv minv) * height

/-- The `points` memo of `Sparkline`: the empty string for empty data,
otherwise the scaled coordinate pairs joined by spaces.  Values are modelled
as exact rationals; the JavaScript float formatting of each coordinate is
abstracted by `toString`. -/
def sparklinePoints (data : List ℚ) (height : ℚ) : String :=
  match data with
  | [] => ""
  | d :: ds =>
    String.intercalate " " ((d :: ds).enum.map
      (fun p => toString (scaleX (d :: ds).length p.1) ++ "," ++
        toString (scaleY height (dataMin d ds) (dataMax d ds) p.2)))

theorem foldl_max_all_eq (ds : List ℚ) :
    ∀ d : ℚ, (∀ v ∈ ds, v = d) → ds.foldl max d = d := by
  induction ds with
  | nil => intro d _; rfl
  | cons a as ih =>
    intro d h
    have ha : a = d := h a (List.mem_cons_self a as)
    simp only [List.foldl_cons, ha, max_self]
    exact ih d (fun v hv => h v (List.mem_cons_of_mem a hv))

theorem foldl_min_all_eq (ds : List ℚ) :
    ∀ d : ℚ, (∀ v ∈ ds, v = d) → ds.foldl min d = d := by
  induction ds with
  | nil => intro d _; rfl
  | cons a as ih =>
    intro d h
    have ha : a = d := h a (List.mem_cons_self a as)
    simp only [List.foldl_cons, ha, min_self]
    exact ih d (fun v hv => h v (List.mem_cons_of_mem a hv))

/-- C10: the Sparkline point computation is total: empty data yields the
empty points string (no arithmetic on absent elements); the y-scaling
divisor is never zero, and in the all-equal-data case the `|| 1` guard
makes it exactly 1, so `scaleY` never divides by zero. -/
theorem sparkline_total :
    (∀ h : ℚ, sparklinePoints [] h = "") ∧
    (∀ (d : ℚ) (ds : List ℚ), (∀ v ∈ d :: ds, v = d) →
      sparklineDivisor (dataMax d ds) (dataMin d ds) = 1) ∧
    (∀ maxv minv : ℚ, sparklineDivisor maxv minv ≠ 0) ∧
    (∀ height minv maxv v : ℚ,
      scaleY height minv maxv v =
        height - ((v - minv) / sparklineDivisor maxv minv) * height) := by
  refine ⟨fun h => rfl, ?_, ?_, fun height minv maxv v => rfl⟩
  · intro d ds hall
    have hds : ∀ v ∈ ds, v = d := fun v hv => hall v (List.mem_cons_of_mem d hv)
    have hmax : dataMax d ds = d := foldl_max_all_eq ds d hds
    have hmin : dataMin d ds = d := foldl_min_all_eq ds d hds
    rw [hmax, hmin]
    unfold sparklineDivisor
    rw [if_pos (sub_self d)]
  · intro maxv minv
    unfold sparklineDivisor
    split_ifs with h
    · exact one_ne_zero
    · exact h

/-! ## Concrete instantiations -/

/-- Sample principal: owner of the sample file. -/
def alice : Principal := ⟨1, "alice", Role.user⟩

/-- Sample principal: plain user, grantee in the expiry scenario. -/
def bob : Principal := ⟨2, "bob", Role.user⟩

/-- Sample principal carrying the admin role. -/
def carol : Principal := ⟨3, "carol", Role.admin⟩

/-- Sample evidence file owned by `alice`. -/
def evidence1 : EvidenceFile := ⟨10, 1, 0, 100⟩

/-- Sample system state: three principals, one file, no grants, empty
ledger, clock at 0. -/
def baseState : SystemState := ⟨[alice, bob, carol], [evidence1], [], [], 0⟩

/-- Sample audit-record fields. -/
def sampleFields : RecordFields := ⟨0, some 1, some 10, .VIEW, .ALLOW, 0⟩

/-- A second, distinct set of audit-record fields. -/
def sampleFields2 : RecordFields := ⟨1, some 2, some 10, .DOWNLOAD, .DENY, 1⟩

theorem hash_chain_integrity_witness :
    verify (buildLedger [sampleFields, sampleFields2]) = ⟨true, none, "ok"⟩ ∧
    (verify (mutateAt (buildLedger [sampleFields, sampleFields2]) 1
      (.metadata 99))).valid = false ∧
    (verify (mutateAt (buildLedger [sampleFields, sampleFields2]) 1
      (.metadata 99))).brokenAtSequence = some 1 := by
  have h := hash_chain_integrity [sampleFields, sampleFields2]
  have h2 := h.2 1 (.metadata 99) _ rfl (by decide)
  exact ⟨h.1, h2.1, h2.2⟩

theorem owner_always_allowed_witness :
    check baseState 1 10 Level.admin = .ok (.allow .owner) :=
  owner_always_allowed baseState 1 10 Level.admin alice evidence1 rfl rfl rfl

theorem expired_grant_denied_witness :
    ∃ (s' : SystemState) (g : PermissionGrant),
      grant baseState 1 10 2 Level.read (some 5) = .ok (s', g) ∧
      (check { s' with now := 10 } 2 10 Level.read = .ok .deny ∧
        g ∈ grantHistory { s' with now := 10 } 10 2) := by
  refine ⟨_, _, rfl, ?_⟩
  exact expired_grant_denied baseState 1 2 10 Level.read 5 10 bob evidence1 _ _
    rfl rfl (by decide) (by decide)
    (by intro g' hg'; simp [baseState] at hg') rfl (by decide)

theorem admin_role_override_witness :
    check baseState 3 10 Level.read = .ok (.allow .override) :=
  ((admin_role_override baseState 3 10 Level.read carol evidence1 rfl rfl rfl).2
    (by decide) (by intro g hg; simp [baseState] at hg)).1

theorem revoke_idempotent_witness :
    ∃ s1 s2 : SystemState,
      revoke baseState 1 10 2 Level.read = .ok s1 ∧
      s1.grants = baseState.grants ∧
      (∃ rec : AuditRecord, s1.ledger = baseState.ledger ++ [rec] ∧
        rec.action = Action.REVOKE ∧ rec.outcome = Outcome.ALLOW) ∧
      revoke s1 1 10 2 Level.read = .ok s2 ∧
      s2.grants = baseState.grants ∧
      (∃ rec2 : AuditRecord, s2.ledger = s1.ledger ++ [rec2] ∧
        rec2.action = Action.REVOKE ∧ rec2.outcome = Outcome.ALLOW) :=
  revoke_idempotent baseState 1 10 2 Level.read .owner rfl
    (by intro g hg; simp [baseState] at hg)

theorem readRange_consistency_witness :
    (readRange (buildLedger (List.replicate 100 sampleFields)) 40 60).length = 20 :=
  (readRange_consistency (List.replicate 100 sampleFields) (by rfl)).1

theorem append_sequence_monotonic_witness :
    (buildLedger [sampleFields, sampleFields2]).map AuditRecord.seq =
      List.range 2 :=
  (append_sequence_monotonic [sampleFields, sampleFields2]).1

theorem batch_navigation_safe_witness :
    batchStep ⟨3, 2⟩ BatchEvent.next = ⟨3, 0⟩ ∧
    BatchInv ([BatchEvent.upload 3, BatchEvent.next, BatchEvent.prev,
      BatchEvent.prev].foldl batchStep initialBatchState) := by
  constructor
  · rw [batch_navigation_safe.2.1 ⟨3, 2⟩ (by decide)]
    decide
  · exact batch_navigation_safe.2.2.2 _

theorem sparkline_total_witness :
    sparklinePoints [] 64 = "" ∧
    sparklineDivisor (dataMax 5 [5, 5]) (dataMin 5 [5, 5]) = 1 := by
  refine ⟨sparkline_total.1 64, sparkline_total.2.1 5 [5, 5] ?_⟩
  intro v hv
  simp at hv
  exact hv

end FrameTruth
